import Mathlib

/-!
Verification of the recipe-app backend reconciliation engine.

This file gives a shallow embedding of the merge and reconciliation logic of
src/server.js and proves the frozen claims about it.

Embedding notes.
A JSON record is modelled by the structure Record: the fields the merge logic
inspects (id, updatedAt, instructions, imageBase64) are explicit, and every
other field of the record is carried opaquely in the extra association list,
so the JS object spread is modelled by a structure update.  A raw list
element (the inputs are arbitrary JSON arrays) is an Item: null, a
non-object value, or a structured object.  JS truthiness of the string
fields is modelled by truthy (absent or empty means falsy), and the
timestamp read is recTime (missing updatedAt means 0, matching the code).
The JS Map is modelled as a function from ids to optional records, since the
code never iterates the map, only gets and sets.  The in-place descending
numeric sort is modelled by insertion sort.
-/

/-- A structured record: the fields inspected by the merger are explicit,
all remaining fields are opaque key-value pairs in extra. -/
structure Record where
  id : String
  updatedAt : Option Nat
  instructions : Option String
  imageBase64 : Option String
  extra : List (String × String)
deriving DecidableEq

/-- A raw element of an input array: null, a non-object JSON value, or a
structured object.  An object with an absent id is represented by a Record
whose id is the empty string (both are dropped identically). -/
inductive Item where
  | null
  | num (n : Nat)
  | obj (r : Record)
deriving DecidableEq

/-- JS truthiness of an optional string field: absent and empty are falsy. -/
def truthy : Option String → Bool
  | none => false
  | some s => decide (s ≠ "")

/-- Timestamp of a record as the code reads it:
item.updatedAt ? new Date(item.updatedAt).getTime() : 0. -/
def recTime (r : Record) : Nat :=
  r.updatedAt.getD 0

/-- The element-level sanitization filter of mergeOrderedList:
i && typeof i === 'object' && i.id. -/
def isValidItem : Item → Bool
  | .obj r => decide (r.id ≠ "")
  | _ => false

/-- (list || []).filter(i => i && typeof i === 'object' && i.id), keeping the
records of the surviving elements. -/
def safeList (l : List Item) : List Record :=
  l.filterMap fun i =>
    match i with
    | .obj r => if r.id ≠ "" then some r else none
    | _ => none

/-- The anti-data-loss adjustment applied when a new item replaces an
existing map entry: if the new item has instructions, lacks an image, and
the existing entry has one, the image is carried over (the object spread
{ ...item, imageBase64: existing.imageBase64 }). -/
def maybeCopyImage (item existing : Record) : Record :=
  if truthy item.instructions && !truthy item.imageBase64 &&
      truthy existing.imageBase64 then
    { item with imageBase64 := existing.imageBase64 }
  else item

/-- One iteration of the forEach body building allItemsMap. -/
def mergeStep (m : String → Option Record) (item : Record) :
    String → Option Record :=
  match m item.id with
  | none => fun k => if k = item.id then some item else m k
  | some existing =>
    if recTime item ≥ recTime existing then
      fun k => if k = item.id then some (maybeCopyImage item existing) else m k
    else m

/-- allItemsMap: the most up-to-date version of every item, built by
scanning the concatenated sanitized lists. -/
def buildMap (items : List Record) : String → Option Record :=
  items.foldl mergeStep (fun _ => none)

/-- Insert a value into a descending-sorted list of timestamps. -/
def insertDesc (x : Nat) : List Nat → List Nat
  | [] => [x]
  | y :: ys => if x ≥ y then x :: y :: ys else y :: insertDesc x ys

/-- timestamps.sort((a, b) => b - a): sort numerically descending. -/
def sortDesc (l : List Nat) : List Nat :=
  l.foldr insertDesc []

/-- getListRecencyScore: the element at index floor(length / 2) of the
descending-sorted per-item timestamps, 0 for an empty list. -/
def getListRecencyScore (list : List Record) : Nat :=
  if list.isEmpty then 0
  else (sortDesc (list.map recTime)).getD (list.length / 2) 0

/-- mergeOrderedList from src/server.js: sanitize both lists, build the
winner map, pick the authoritative list by recency score (client wins
ties), emit the authoritative order then the other-only items, and drop
failed lookups (filter(Boolean)). -/
def mergeOrderedList (serverList clientList : List Item) : List Record :=
  let safeClientList := safeList clientList
  let safeServerList := safeList serverList
  let allItemsMap := buildMap (safeServerList ++ safeClientList)
  let clientScore := getListRecencyScore safeClientList
  let serverScore := getListRecencyScore safeServerList
  let authoritativeList :=
    if clientScore ≥ serverScore then safeClientList else safeServerList
  let otherList :=
    if clientScore ≥ serverScore then safeServerList else safeClientList
  let authoritativeIds := authoritativeList.map fun i => i.id
  let mergedList :=
    (authoritativeList.map fun i => allItemsMap i.id)
      ++ ((otherList.filter fun i => decide (i.id ∉ authoritativeIds)).map
            fun i => allItemsMap i.id)
  mergedList.reduceOption

/-- Fold implementing insertion-order set union: skip elements already
seen, append fresh ones. -/
def dedupAppend (acc : List String) (l : List String) : List String :=
  l.foldl (fun a x => if x ∈ a then a else a ++ [x]) acc

/-- mergeDeletedIds: Array.from(new Set([...existingIds, ...newIds])). -/
def mergeDeletedIds (existingIds newIds : List String) : List String :=
  dedupAppend [] (existingIds ++ newIds)

/-- The synchronized state carried by POST /data: the four arrays the
handler validates and merges (lastUpdated, a wall-clock stamp, is outside
the shallow embedding). -/
structure SyncState where
  recipes : List Item
  groceryList : List Item
  deletedRecipeIds : List String
  deletedGroceryIds : List String
deriving DecidableEq

/-- The POST /data reconciliation: merge tombstones first, merge both
collections, then filter tombstoned ids out of the merged collections. -/
def postData (serverData clientData : SyncState) : SyncState :=
  let allDeletedRecipeIds :=
    mergeDeletedIds serverData.deletedRecipeIds clientData.deletedRecipeIds
  let allDeletedGroceryIds :=
    mergeDeletedIds serverData.deletedGroceryIds clientData.deletedGroceryIds
  let mergedRecipes := mergeOrderedList serverData.recipes clientData.recipes
  let mergedGrocery :=
    mergeOrderedList serverData.groceryList clientData.groceryList
  let finalRecipes :=
    mergedRecipes.filter fun r => decide (r.id ∉ allDeletedRecipeIds)
  let finalGrocery :=
    mergedGrocery.filter fun i => decide (i.id ∉ allDeletedGroceryIds)
  { recipes := finalRecipes.map Item.obj
    groceryList := finalGrocery.map Item.obj
    deletedRecipeIds := allDeletedRecipeIds
    deletedGroceryIds := allDeletedGroceryIds }

/-- A record as seen by the single-record endpoints of the second server
version: id, the validated title and name fields, other fields opaque. -/
structure Entry where
  id : String
  title : String
  name : String
  extra : List (String × String)
deriving DecidableEq

/-- The persisted state the single-record endpoints read and write. -/
structure Store2 where
  recipes : List Entry
  groceryList : List Entry
  deletedRecipeIds : List String
  deletedGroceryIds : List String
deriving DecidableEq

/-- data.recipes[existingIndex] = newRecipe: replace the first entry whose
id matches, leave the rest unchanged. -/
def replaceFirstById (l : List Entry) (r : Entry) : List Entry :=
  match l with
  | [] => []
  | x :: xs => if x.id = r.id then r :: xs else x :: replaceFirstById xs r

/-- POST /recipes: reject when id or title is falsy; otherwise remove the
id from deletedRecipeIds, update in place or prepend, and persist. -/
def postRecipes (data : Store2) (newRecipe : Entry) : Option Store2 :=
  if newRecipe.id = "" ∨ newRecipe.title = "" then none
  else
    let deleted := data.deletedRecipeIds.filter fun i => decide (i ≠ newRecipe.id)
    let recipes :=
      if data.recipes.any fun r => decide (r.id = newRecipe.id) then
        replaceFirstById data.recipes newRecipe
      else newRecipe :: data.recipes
    some { data with deletedRecipeIds := deleted, recipes := recipes }

/-- POST /grocery: reject when id or name is falsy; when the id is not yet
in the list, remove it from deletedGroceryIds, prepend the item and
persist; when it already exists the handler answers 200 without calling
writeData, so the persisted state is unchanged. -/
def postGrocery (data : Store2) (newItem : Entry) : Option Store2 :=
  if newItem.id = "" ∨ newItem.name = "" then none
  else if data.groceryList.any fun i => decide (i.id = newItem.id) then
    some data
  else
    some { data with
      deletedGroceryIds :=
        data.deletedGroceryIds.filter fun i => decide (i ≠ newItem.id)
      groceryList := newItem :: data.groceryList }

/-- The authoritative list as the spec describes it: the strictly
higher-scored list, with the client list chosen when the scores are equal. -/
def specAuthoritative (serverList clientList : List Item) : List Record :=
  if getListRecencyScore (safeList clientList) >
      getListRecencyScore (safeList serverList) then safeList clientList
  else if getListRecencyScore (safeList serverList) >
      getListRecencyScore (safeList clientList) then safeList serverList
  else safeList clientList

/-- The non-authoritative list matching specAuthoritative. -/
def specNonAuthoritative (serverList clientList : List Item) : List Record :=
  if getListRecencyScore (safeList clientList) >
      getListRecencyScore (safeList serverList) then safeList serverList
  else if getListRecencyScore (safeList serverList) >
      getListRecencyScore (safeList clientList) then safeList clientList
  else safeList serverList

/-- Timestamp of a raw item, missing treated as 0 (for the claim-side
score below). -/
def itemTime : Item → Nat
  | .obj r => recTime r
  | _ => 0

/-- Modelled from the spec: the recency score the claim describes, the
median of per-item updatedAt values taken over the original,
pre-sanitization list.  Used only to compare against the score the code
actually computes. -/
def claimScoreOriginal (l : List Item) : Nat :=
  if l.isEmpty then 0
  else (sortDesc (l.map itemTime)).getD (l.length / 2) 0

/-! ### Basic facts about the winner map -/

/-- The ids of a record list, in order. -/
def idsOf (l : List Record) : List String := l.map fun r => r.id

/-- Combining an optional existing map entry with a newly scanned item
(the body of the forEach over the concatenated lists). -/
def resolveOpt (prev : Option Record) (x : Record) : Record :=
  match prev with
  | none => x
  | some e => if recTime x ≥ recTime e then maybeCopyImage x e else e

lemma maybeCopyImage_id (item existing : Record) :
    (maybeCopyImage item existing).id = item.id := by
  unfold maybeCopyImage; split <;> rfl

lemma recTime_maybeCopyImage (item existing : Record) :
    recTime (maybeCopyImage item existing) = recTime item := by
  unfold maybeCopyImage recTime; split <;> rfl

lemma mergeStep_ne (m : String → Option Record) (item : Record) (k : String)
    (h : k ≠ item.id) : mergeStep m item k = m k := by
  rcases hm : m item.id with _ | e
  · simp [mergeStep, hm, h]
  · simp only [mergeStep, hm]
    split
    · simp [h]
    · rfl

lemma mergeStep_self (m : String → Option Record) (item : Record) :
    mergeStep m item item.id = some (resolveOpt (m item.id) item) := by
  unfold mergeStep resolveOpt
  split
  next heq => rw [heq]; simp
  next e heq =>
    rw [heq]
    split
    next hle => simp [hle]
    next hlt => simp [hlt, heq]

lemma foldl_mergeStep_ne (items : List Record) (m : String → Option Record)
    (k : String) (h : ∀ x ∈ items, x.id ≠ k) :
    (items.foldl mergeStep m) k = m k := by
  induction items generalizing m with
  | nil => rfl
  | cons a l ih =>
    simp only [List.foldl_cons]
    rw [ih _ fun x hx => h x (List.mem_cons_of_mem _ hx)]
    exact mergeStep_ne m a k fun he => h a (List.mem_cons_self _ _) he.symm

lemma foldl_mergeStep_split (pre post : List Record) (x : Record)
    (m : String → Option Record) (k : String) (hx : x.id = k)
    (hpre : ∀ y ∈ pre, y.id ≠ k) (hpost : ∀ y ∈ post, y.id ≠ k) :
    ((pre ++ x :: post).foldl mergeStep m) k = some (resolveOpt (m k) x) := by
  subst hx
  rw [List.foldl_append, List.foldl_cons,
    foldl_mergeStep_ne post _ _ hpost, mergeStep_self,
    foldl_mergeStep_ne pre m _ hpre]

lemma filter_singleton_split {α : Type} (p : α → Bool) (l : List α) (x : α)
    (h : l.filter p = [x]) :
    ∃ pre post, l = pre ++ x :: post ∧ (∀ y ∈ pre, ¬p y = true) ∧
      ∀ y ∈ post, ¬p y = true := by
  induction l with
  | nil => simp at h
  | cons a l ih =>
    rw [List.filter_cons] at h
    split at h
    · injection h with h1 h2
      subst h1
      exact ⟨[], l, rfl, by simp, List.filter_eq_nil_iff.mp h2⟩
    · obtain ⟨pre, post, rfl, hpre, hpost⟩ := ih h
      refine ⟨a :: pre, post, rfl, fun y hy => ?_, hpost⟩
      rcases List.mem_cons.mp hy with rfl | hy'
      · assumption
      · exact hpre y hy'

lemma mem_of_filter_singleton {α : Type} {p : α → Bool} {l : List α} {x : α}
    (h : l.filter p = [x]) : x ∈ l ∧ p x = true := by
  have hx : x ∈ l.filter p := h ▸ List.mem_singleton_self x
  exact ⟨List.mem_of_mem_filter hx, List.of_mem_filter hx⟩

lemma foldl_mergeStep_of_filter_single (items : List Record) (k : String)
    (x : Record) (m : String → Option Record)
    (h : items.filter (fun r => decide (r.id = k)) = [x]) :
    (items.foldl mergeStep m) k = some (resolveOpt (m k) x) := by
  obtain ⟨pre, post, rfl, hpre, hpost⟩ := filter_singleton_split _ _ _ h
  have hx : x.id = k := by
    have := (mem_of_filter_singleton h).2
    simpa using this
  exact foldl_mergeStep_split pre post x m k hx
    (fun y hy => by simpa using hpre y hy)
    (fun y hy => by simpa using hpost y hy)

lemma foldl_mergeStep_of_filter_nil (items : List Record) (k : String)
    (m : String → Option Record)
    (h : items.filter (fun r => decide (r.id = k)) = []) :
    (items.foldl mergeStep m) k = m k := by
  refine foldl_mergeStep_ne items m k fun y hy => ?_
  simpa using List.filter_eq_nil_iff.mp h y hy

lemma mergeStep_isSome (m : String → Option Record) (item : Record) (k : String)
    (h : (m k).isSome) : ((mergeStep m item) k).isSome := by
  by_cases hk : k = item.id
  · subst hk; rw [mergeStep_self]; rfl
  · rw [mergeStep_ne _ _ _ hk]; exact h

lemma foldl_mergeStep_isSome (items : List Record) (m : String → Option Record)
    (k : String) (h : (m k).isSome) :
    ((items.foldl mergeStep m) k).isSome := by
  induction items generalizing m with
  | nil => exact h
  | cons a l ih => exact ih _ (mergeStep_isSome m a k h)

lemma foldl_mergeStep_isSome_of_mem (items : List Record)
    (m : String → Option Record) (x : Record) (hx : x ∈ items) :
    ((items.foldl mergeStep m) x.id).isSome := by
  induction items generalizing m with
  | nil => cases hx
  | cons a l ih =>
    rcases List.mem_cons.mp hx with rfl | hx'
    · simp only [List.foldl_cons]
      refine foldl_mergeStep_isSome l _ _ ?_
      rw [mergeStep_self]; rfl
    · exact ih _ hx'

lemma foldl_mergeStep_id (items : List Record) (m : String → Option Record)
    (k : String) (r : Record)
    (hm : ∀ k' r', m k' = some r' → r'.id = k')
    (h : (items.foldl mergeStep m) k = some r) : r.id = k := by
  induction items generalizing m with
  | nil => exact hm k r h
  | cons a l ih =>
    refine ih _ ?_ h
    intro k' r' h'
    by_cases hk : k' = a.id
    · subst hk
      rw [mergeStep_self] at h'
      rcases Option.some.injEq .. ▸ h' with rfl
      unfold resolveOpt
      rcases hma : m a.id with _ | e
      · rfl
      · simp only
        split
        · exact maybeCopyImage_id a e
        · exact hm _ _ hma
    · rw [mergeStep_ne _ _ _ hk] at h'
      exact hm _ _ h'

lemma buildMap_id {items : List Record} {k : String} {r : Record}
    (h : buildMap items k = some r) : r.id = k :=
  foldl_mergeStep_id items _ k r (fun _ _ h' => by cases h') h

lemma mem_idsOf {l : List Record} {k : String} :
    k ∈ idsOf l ↔ ∃ r ∈ l, r.id = k := by
  unfold idsOf; exact List.mem_map

lemma buildMap_none_of_not_mem (items : List Record) (k : String)
    (h : k ∉ idsOf items) : buildMap items k = none := by
  unfold buildMap
  rw [foldl_mergeStep_ne]
  intro x hx hxk
  exact h (mem_idsOf.mpr ⟨x, hx, hxk⟩)

lemma buildMap_isSome_of_mem {items : List Record} {k : String}
    (h : k ∈ idsOf items) : (buildMap items k).isSome := by
  obtain ⟨x, hx, rfl⟩ := mem_idsOf.mp h
  exact foldl_mergeStep_isSome_of_mem items _ x hx

/-! ### Facts about sanitization -/

lemma mem_safeList {l : List Item} {r : Record} :
    r ∈ safeList l ↔ Item.obj r ∈ l ∧ r.id ≠ "" := by
  unfold safeList
  rw [List.mem_filterMap]
  constructor
  · rintro ⟨i, hi, hmatch⟩
    rcases i with _ | n | r'
    · simp at hmatch
    · simp at hmatch
    · by_cases h : r'.id = "" <;> simp [h] at hmatch
      exact ⟨hmatch ▸ hi, hmatch ▸ ‹r'.id ≠ ""›⟩
  · rintro ⟨hi, hne⟩
    exact ⟨Item.obj r, hi, by simp [hne]⟩

lemma safeList_id_ne {l : List Item} {r : Record} (h : r ∈ safeList l) :
    r.id ≠ "" := (mem_safeList.mp h).2

lemma safeList_map_obj (F : List Record) (h : ∀ r ∈ F, r.id ≠ "") :
    safeList (F.map Item.obj) = F := by
  induction F with
  | nil => rfl
  | cons a l ih =>
    have ha : a.id ≠ "" := h a (List.mem_cons_self _ _)
    simp only [List.map_cons]
    unfold safeList
    rw [List.filterMap_cons]
    rw [show (List.filterMap _ (l.map Item.obj)) = safeList (l.map Item.obj)
      from rfl, ih fun r hr => h r (List.mem_cons_of_mem _ hr)]
    simp [ha]

lemma safeList_filter_isValid (l : List Item) :
    safeList (l.filter isValidItem) = safeList l := by
  induction l with
  | nil => rfl
  | cons a l ih =>
    rcases a with _ | n | r
    · simpa [List.filter_cons, isValidItem, safeList] using ih
    · simpa [List.filter_cons, isValidItem, safeList] using ih
    · by_cases h : r.id = ""
      · simpa [List.filter_cons, isValidItem, h, safeList] using ih
      · simp only [List.filter_cons, isValidItem, h, decide_not]
        simpa [safeList, h] using ih

/-! ### Structure of the merged output -/

/-- The authoritative list as the code picks it: the greater-or-equal
comparison, client winning ties. -/
def authListCode (serverList clientList : List Item) : List Record :=
  if getListRecencyScore (safeList clientList) ≥
      getListRecencyScore (safeList serverList) then safeList clientList
  else safeList serverList

/-- The non-authoritative list matching authListCode. -/
def otherListCode (serverList clientList : List Item) : List Record :=
  if getListRecencyScore (safeList clientList) ≥
      getListRecencyScore (safeList serverList) then safeList serverList
  else safeList clientList

lemma auth_other_cases (serverList clientList : List Item) :
    (authListCode serverList clientList = safeList clientList ∧
      otherListCode serverList clientList = safeList serverList) ∨
    (authListCode serverList clientList = safeList serverList ∧
      otherListCode serverList clientList = safeList clientList) := by
  unfold authListCode otherListCode
  split
  · exact Or.inl ⟨rfl, rfl⟩
  · exact Or.inr ⟨rfl, rfl⟩

lemma reduceOption_map_eq {α β : Type} (l : List α) (f : α → Option β) :
    (l.map f).reduceOption = l.filterMap f := by
  simp [List.reduceOption, List.filterMap_map]

lemma mergeOrderedList_eq (serverList clientList : List Item) :
    mergeOrderedList serverList clientList =
      (authListCode serverList clientList ++
        (otherListCode serverList clientList).filter fun i =>
          decide (i.id ∉ idsOf (authListCode serverList clientList))).filterMap
        fun i => buildMap (safeList serverList ++ safeList clientList) i.id := by
  simp only [mergeOrderedList, authListCode, otherListCode, idsOf]
  rw [List.reduceOption_append, reduceOption_map_eq, reduceOption_map_eq,
    ← List.filterMap_append]

lemma mergeOrderedList_all_lookup (serverList clientList : List Item) :
    ∀ i ∈ authListCode serverList clientList ++
        (otherListCode serverList clientList).filter (fun i =>
          decide (i.id ∉ idsOf (authListCode serverList clientList))),
      ∃ r, buildMap (safeList serverList ++ safeList clientList) i.id = some r ∧
        r.id = i.id := by
  intro i hi
  have hmem : i ∈ safeList serverList ++ safeList clientList := by
    rcases List.mem_append.mp hi with h | h
    · rcases auth_other_cases serverList clientList with ⟨ha, _⟩ | ⟨ha, _⟩ <;>
        rw [ha] at h
      · exact List.mem_append.mpr (Or.inr h)
      · exact List.mem_append.mpr (Or.inl h)
    · have h' := List.mem_of_mem_filter h
      rcases auth_other_cases serverList clientList with ⟨_, ho⟩ | ⟨_, ho⟩ <;>
        rw [ho] at h'
      · exact List.mem_append.mpr (Or.inl h')
      · exact List.mem_append.mpr (Or.inr h')
  have hsome : (buildMap (safeList serverList ++ safeList clientList) i.id).isSome :=
    foldl_mergeStep_isSome_of_mem _ (fun _ => none) i hmem
  obtain ⟨r, hr⟩ := Option.isSome_iff_exists.mp hsome
  exact ⟨r, hr, buildMap_id hr⟩

lemma filterMap_lookup_map_id (l : List Record) (M : String → Option Record)
    (h : ∀ i ∈ l, ∃ r, M i.id = some r ∧ r.id = i.id) :
    idsOf (l.filterMap fun i => M i.id) = idsOf l := by
  induction l with
  | nil => rfl
  | cons a t ih =>
    obtain ⟨r, hr, hid⟩ := h a (List.mem_cons_self _ _)
    simp only [List.filterMap_cons, hr]
    unfold idsOf
    simp only [List.map_cons]
    rw [hid]
    have := ih fun i hi => h i (List.mem_cons_of_mem _ hi)
    unfold idsOf at this
    rw [this]

lemma idsOf_mergeOrderedList (serverList clientList : List Item) :
    idsOf (mergeOrderedList serverList clientList) =
      idsOf (authListCode serverList clientList) ++
        (idsOf (otherListCode serverList clientList)).filter fun k =>
          decide (k ∉ idsOf (authListCode serverList clientList)) := by
  rw [mergeOrderedList_eq,
    filterMap_lookup_map_id _ _ (mergeOrderedList_all_lookup serverList clientList)]
  unfold idsOf
  rw [List.map_append]
  congr 1
  rw [List.filter_map]
  rfl

lemma mem_mergeOrderedList_iff (serverList clientList : List Item) (r : Record) :
    r ∈ mergeOrderedList serverList clientList ↔
      ∃ k, (k ∈ idsOf (safeList serverList) ∨ k ∈ idsOf (safeList clientList)) ∧
        buildMap (safeList serverList ++ safeList clientList) k = some r := by
  rw [mergeOrderedList_eq, List.mem_filterMap]
  constructor
  · rintro ⟨i, hi, hlook⟩
    refine ⟨i.id, ?_, hlook⟩
    have hmem : i ∈ safeList serverList ++ safeList clientList := by
      rcases List.mem_append.mp hi with h | h
      · rcases auth_other_cases serverList clientList with ⟨ha, _⟩ | ⟨ha, _⟩ <;>
          rw [ha] at h
        · exact List.mem_append.mpr (Or.inr h)
        · exact List.mem_append.mpr (Or.inl h)
      · have h' := List.mem_of_mem_filter h
        rcases auth_other_cases serverList clientList with ⟨_, ho⟩ | ⟨_, ho⟩ <;>
          rw [ho] at h'
        · exact List.mem_append.mpr (Or.inl h')
        · exact List.mem_append.mpr (Or.inr h')
    rcases List.mem_append.mp hmem with h | h
    · exact Or.inl (mem_idsOf.mpr ⟨i, h, rfl⟩)
    · exact Or.inr (mem_idsOf.mpr ⟨i, h, rfl⟩)
  · rintro ⟨k, hk, hlook⟩
    by_cases hA : k ∈ idsOf (authListCode serverList clientList)
    · obtain ⟨i, hiA, hi_id⟩ := mem_idsOf.mp hA
      exact ⟨i, List.mem_append.mpr (Or.inl hiA), by rw [hi_id]; exact hlook⟩
    · have hB : k ∈ idsOf (otherListCode serverList clientList) := by
        rcases auth_other_cases serverList clientList with ⟨ha, ho⟩ | ⟨ha, ho⟩ <;>
          rw [ha] at hA <;> rw [ho]
        · rcases hk with h | h
          · exact h
          · exact absurd h hA
        · rcases hk with h | h
          · exact absurd h hA
          · exact h
      obtain ⟨i, hiB, hi_id⟩ := mem_idsOf.mp hB
      refine ⟨i, List.mem_append.mpr (Or.inr ?_), by rw [hi_id]; exact hlook⟩
      exact List.mem_filter.mpr ⟨hiB, by simp [hi_id, hA]⟩

lemma lookup_of_mem_mergeOrderedList {serverList clientList : List Item}
    {r : Record} (h : r ∈ mergeOrderedList serverList clientList) :
    buildMap (safeList serverList ++ safeList clientList) r.id = some r := by
  obtain ⟨k, _, hlook⟩ := (mem_mergeOrderedList_iff serverList clientList r).mp h
  rw [buildMap_id hlook]
  exact hlook

lemma mem_mergeOrderedList_of_lookup {serverList clientList : List Item}
    {k : String} {r : Record}
    (hk : k ∈ idsOf (safeList serverList) ∨ k ∈ idsOf (safeList clientList))
    (h : buildMap (safeList serverList ++ safeList clientList) k = some r) :
    r ∈ mergeOrderedList serverList clientList :=
  (mem_mergeOrderedList_iff serverList clientList r).mpr ⟨k, hk, h⟩

lemma mergeOrderedList_id_ne {serverList clientList : List Item} {r : Record}
    (h : r ∈ mergeOrderedList serverList clientList) : r.id ≠ "" := by
  obtain ⟨k, hk, hlook⟩ := (mem_mergeOrderedList_iff serverList clientList r).mp h
  have hid := buildMap_id hlook
  subst hid
  rcases hk with hk | hk <;> obtain ⟨x, hx, hxid⟩ := mem_idsOf.mp hk <;>
    rw [← hxid] <;> exact safeList_id_ne hx

/-! ### Counting ids in the merged output -/

lemma count_union_dedup (A B : List String) (hA : A.Nodup) (hB : B.Nodup)
    (k : String) :
    (A ++ B.filter fun x => decide (x ∉ A)).count k =
      if k ∈ A ∨ k ∈ B then 1 else 0 := by
  rw [List.count_append]
  by_cases hkA : k ∈ A
  · rw [List.count_eq_one_of_mem hA hkA]
    have hz : (B.filter fun x => decide (x ∉ A)).count k = 0 := by
      apply List.count_eq_zero_of_not_mem
      intro hmem
      have := List.of_mem_filter hmem
      simp at this
      exact this hkA
    rw [hz]
    simp [hkA]
  · by_cases hkB : k ∈ B
    · rw [List.count_eq_zero_of_not_mem hkA,
        List.count_eq_one_of_mem (hB.filter _)
          (List.mem_filter.mpr ⟨hkB, by simp [hkA]⟩)]
      simp [hkB]
    · rw [List.count_eq_zero_of_not_mem hkA,
        List.count_eq_zero_of_not_mem fun h => hkB (List.mem_of_mem_filter h)]
      simp [hkA, hkB]

lemma idsOf_mergeOrderedList_count (serverList clientList : List Item)
    (hS : (idsOf (safeList serverList)).Nodup)
    (hC : (idsOf (safeList clientList)).Nodup) (k : String) :
    (idsOf (mergeOrderedList serverList clientList)).count k =
      if k ∈ idsOf (safeList serverList) ∨ k ∈ idsOf (safeList clientList)
      then 1 else 0 := by
  rw [idsOf_mergeOrderedList]
  rcases auth_other_cases serverList clientList with ⟨ha, ho⟩ | ⟨ha, ho⟩ <;>
    rw [ha, ho, count_union_dedup]
  · simp only [or_comm]
  · exact hC
  · exact hS
  · exact hS
  · exact hC

/-! ### The recency score is a median of the sanitized timestamps -/

lemma insertDesc_perm (x : Nat) (l : List Nat) : (insertDesc x l).Perm (x :: l) := by
  induction l with
  | nil => exact List.Perm.refl _
  | cons y ys ih =>
    unfold insertDesc
    split
    · exact List.Perm.refl _
    · exact (ih.cons y).trans (List.Perm.swap x y ys)

lemma sortDesc_perm (l : List Nat) : (sortDesc l).Perm l := by
  induction l with
  | nil => exact List.Perm.refl _
  | cons a t ih => exact (insertDesc_perm a (sortDesc t)).trans (ih.cons a)

lemma insertDesc_sorted (x : Nat) (l : List Nat)
    (h : List.Sorted (· ≥ ·) l) :
    List.Sorted (· ≥ ·) (insertDesc x l) := by
  induction l with
  | nil => exact List.sorted_singleton x
  | cons y ys ih =>
    obtain ⟨hy, hys⟩ := List.sorted_cons.mp h
    unfold insertDesc
    split
    next hxy =>
      refine List.sorted_cons.mpr ⟨?_, h⟩
      intro b hb
      rcases List.mem_cons.mp hb with rfl | hb'
      · exact hxy
      · exact le_trans (hy b hb') hxy
    next hxy =>
      refine List.sorted_cons.mpr ⟨?_, ih hys⟩
      intro b hb
      have hb' : b ∈ x :: ys := (insertDesc_perm x ys).mem_iff.mp hb
      rcases List.mem_cons.mp hb' with rfl | hb''
      · exact Nat.le_of_not_le hxy
      · exact hy b hb''

lemma sortDesc_sorted (l : List Nat) : List.Sorted (· ≥ ·) (sortDesc l) := by
  induction l with
  | nil => exact List.sorted_nil
  | cons a t ih => exact insertDesc_sorted a (sortDesc t) ih

lemma getD_mem (l : List Nat) (i : Nat) (h : i < l.length) :
    l.getD i 0 ∈ l := by
  induction l generalizing i with
  | nil => simp at h
  | cons a t ih =>
    cases i with
    | zero => simp
    | succ i =>
      rw [List.getD_cons_succ]
      exact List.mem_cons_of_mem a (ih i (by simpa using h))

lemma sorted_count_ge (d : List Nat) (hd : List.Sorted (· ≥ ·) d) (i : Nat)
    (h : i < d.length) :
    i + 1 ≤ d.countP fun t => decide (d.getD i 0 ≤ t) := by
  induction d generalizing i with
  | nil => simp at h
  | cons a t ih =>
    obtain ⟨ha, ht⟩ := List.sorted_cons.mp hd
    cases i with
    | zero =>
      rw [List.getD_cons_zero, List.countP_cons]
      simp
    | succ i =>
      have hit : i < t.length := by simpa using h
      rw [List.getD_cons_succ, List.countP_cons]
      have hpa : decide (t.getD i 0 ≤ a) = true := by
        simp only [decide_eq_true_eq]
        exact ha _ (getD_mem t i hit)
      rw [hpa]
      simpa using Nat.add_le_add_right (ih ht i hit) 1

lemma sorted_count_le (d : List Nat) (hd : List.Sorted (· ≥ ·) d) (i : Nat)
    (h : i < d.length) :
    d.length - i ≤ d.countP fun t => decide (t ≤ d.getD i 0) := by
  induction d generalizing i with
  | nil => simp at h
  | cons a t ih =>
    obtain ⟨ha, ht⟩ := List.sorted_cons.mp hd
    cases i with
    | zero =>
      rw [List.getD_cons_zero, Nat.sub_zero]
      refine le_of_eq (List.countP_eq_length.mpr ?_).symm
      intro b hb
      rcases List.mem_cons.mp hb with rfl | hb'
      · simp
      · simpa using ha b hb'
    | succ i =>
      have hit : i < t.length := by simpa using h
      rw [List.getD_cons_succ, List.countP_cons]
      calc (a :: t).length - (i + 1) = t.length - i := by
            simp [Nat.succ_sub_succ]
        _ ≤ t.countP fun b => decide (b ≤ t.getD i 0) := ih ht i hit
        _ ≤ _ := Nat.le_add_right _ _

lemma getListRecencyScore_median (l : List Record) (h : l ≠ []) :
    getListRecencyScore l ∈ l.map recTime ∧
    l.length / 2 + 1 ≤
      (l.map recTime).countP (fun t => decide (getListRecencyScore l ≤ t)) ∧
    l.length - l.length / 2 ≤
      (l.map recTime).countP fun t => decide (t ≤ getListRecencyScore l) := by
  have hempt : l.isEmpty = false := List.isEmpty_eq_false.mpr h
  have hlen : (sortDesc (l.map recTime)).length = l.length := by
    rw [(sortDesc_perm (l.map recTime)).length_eq, List.length_map]
  have hidx : l.length / 2 < (sortDesc (l.map recTime)).length := by
    rw [hlen]
    exact Nat.div_lt_self (List.length_pos_of_ne_nil h) (by norm_num)
  have hscore : getListRecencyScore l =
      (sortDesc (l.map recTime)).getD (l.length / 2) 0 := by
    unfold getListRecencyScore
    rw [hempt]
    simp
  refine ⟨?_, ?_, ?_⟩
  · rw [hscore]
    exact (sortDesc_perm (l.map recTime)).mem_iff.mp
      (getD_mem _ _ hidx)
  · rw [hscore, ← (sortDesc_perm (l.map recTime)).countP_eq]
    exact sorted_count_ge _ (sortDesc_sorted _) _ hidx
  · rw [hscore, ← (sortDesc_perm (l.map recTime)).countP_eq]
    have := sorted_count_le _ (sortDesc_sorted (l.map recTime)) _ hidx
    rwa [hlen] at this

/-! ### Authority selection -/

lemma authListCode_of_client_gt {serverList clientList : List Item}
    (h : getListRecencyScore (safeList serverList) <
      getListRecencyScore (safeList clientList)) :
    authListCode serverList clientList = safeList clientList ∧
      otherListCode serverList clientList = safeList serverList := by
  unfold authListCode otherListCode
  rw [if_pos (le_of_lt h), if_pos (le_of_lt h)]
  exact ⟨rfl, rfl⟩

lemma authListCode_of_server_gt {serverList clientList : List Item}
    (h : getListRecencyScore (safeList clientList) <
      getListRecencyScore (safeList serverList)) :
    authListCode serverList clientList = safeList serverList ∧
      otherListCode serverList clientList = safeList clientList := by
  unfold authListCode otherListCode
  rw [if_neg (not_le.mpr h), if_neg (not_le.mpr h)]
  exact ⟨rfl, rfl⟩

lemma specAuthoritative_eq (serverList clientList : List Item) :
    specAuthoritative serverList clientList = authListCode serverList clientList := by
  unfold specAuthoritative authListCode
  split_ifs <;> first | rfl | omega

lemma specNonAuthoritative_eq (serverList clientList : List Item) :
    specNonAuthoritative serverList clientList =
      otherListCode serverList clientList := by
  unfold specNonAuthoritative otherListCode
  split_ifs <;> first | rfl | omega

/-! ### Tombstone union -/

lemma dedupAppend_append (acc l1 l2 : List String) :
    dedupAppend acc (l1 ++ l2) = dedupAppend (dedupAppend acc l1) l2 :=
  List.foldl_append _ _ _ _

lemma mem_dedupAppend (acc l : List String) (x : String) :
    x ∈ dedupAppend acc l ↔ x ∈ acc ∨ x ∈ l := by
  induction l generalizing acc with
  | nil => simp [dedupAppend]
  | cons a t ih =>
    simp only [dedupAppend, List.foldl_cons]
    by_cases h : a ∈ acc
    · rw [if_pos h]
      have := ih acc
      unfold dedupAppend at this
      rw [this]
      constructor
      · rintro (hx | hx)
        · exact Or.inl hx
        · exact Or.inr (List.mem_cons_of_mem _ hx)
      · rintro (hx | hx)
        · exact Or.inl hx
        · rcases List.mem_cons.mp hx with rfl | hx'
          · exact Or.inl h
          · exact Or.inr hx'
    · rw [if_neg h]
      have := ih (acc ++ [a])
      unfold dedupAppend at this
      rw [this]
      simp only [List.mem_append, List.mem_singleton, List.mem_cons]
      tauto

lemma nodup_dedupAppend (acc l : List String) (h : acc.Nodup) :
    (dedupAppend acc l).Nodup := by
  induction l generalizing acc with
  | nil => exact h
  | cons a t ih =>
    simp only [dedupAppend, List.foldl_cons]
    by_cases ha : a ∈ acc
    · rw [if_pos ha]
      exact ih acc h
    · rw [if_neg ha]
      refine ih (acc ++ [a]) ?_
      simp [List.nodup_append, h, ha]

lemma dedupAppend_of_subset (acc l : List String) (h : ∀ x ∈ l, x ∈ acc) :
    dedupAppend acc l = acc := by
  induction l with
  | nil => rfl
  | cons a t ih =>
    simp only [dedupAppend, List.foldl_cons]
    rw [if_pos (h a (List.mem_cons_self _ _))]
    exact ih fun x hx => h x (List.mem_cons_of_mem _ hx)

lemma dedupAppend_eq_append (l : List String) :
    ∀ acc : List String, (acc ++ l).Nodup → dedupAppend acc l = acc ++ l := by
  induction l with
  | nil => intro acc _; simp [dedupAppend]
  | cons a t ih =>
    intro acc h
    have hperm : (acc ++ a :: t).Perm (a :: (acc ++ t)) := List.perm_middle
    have h' := hperm.nodup_iff.mp h
    have ha : a ∉ acc := fun hmem =>
      (List.nodup_cons.mp h').1 (List.mem_append.mpr (Or.inl hmem))
    simp only [dedupAppend, List.foldl_cons]
    rw [if_neg ha]
    have happ : (acc ++ [a]) ++ t = acc ++ a :: t := by simp
    have := ih (acc ++ [a]) (by rw [happ]; exact h)
    unfold dedupAppend at this
    rw [this, happ]

lemma mergeDeletedIds_nodup (a b : List String) : (mergeDeletedIds a b).Nodup :=
  nodup_dedupAppend [] _ List.nodup_nil

lemma mem_mergeDeletedIds (a b : List String) (x : String) :
    x ∈ mergeDeletedIds a b ↔ x ∈ a ∨ x ∈ b := by
  unfold mergeDeletedIds
  rw [mem_dedupAppend]
  simp

lemma mergeDeletedIds_absorb (a b : List String) :
    mergeDeletedIds (mergeDeletedIds a b) b = mergeDeletedIds a b := by
  unfold mergeDeletedIds
  rw [dedupAppend_append]
  have hD : dedupAppend ([] : List String) (dedupAppend [] (a ++ b)) =
      dedupAppend [] (a ++ b) := by
    have h := dedupAppend_eq_append (dedupAppend [] (a ++ b)) []
      (by simpa using nodup_dedupAppend [] (a ++ b) List.nodup_nil)
    simpa using h
  rw [hD]
  refine dedupAppend_of_subset _ _ fun x hx => ?_
  exact (mem_dedupAppend [] (a ++ b) x).mpr (Or.inr (List.mem_append.mpr (Or.inr hx)))

/-! ### Stability of conflict resolution -/

lemma resolveOpt_none (x : Record) : resolveOpt none x = x := rfl

lemma resolveOpt_some (s c : Record) :
    resolveOpt (some s) c =
      if recTime c ≥ recTime s then maybeCopyImage c s else s := rfl

lemma maybeCopyImage_self (c : Record) : maybeCopyImage c c = c := by
  unfold maybeCopyImage
  rcases h : truthy c.imageBase64 <;> simp [h]

lemma resolveOpt_self (c : Record) : resolveOpt (some c) c = c := by
  rw [resolveOpt_some, if_pos (le_refl _), maybeCopyImage_self]

lemma maybeCopyImage_idem (c s : Record) :
    maybeCopyImage c (maybeCopyImage c s) = maybeCopyImage c s := by
  unfold maybeCopyImage
  rcases hA : truthy c.instructions && !truthy c.imageBase64 &&
      truthy s.imageBase64 with _ | _
  · simp only [hA, Bool.false_eq_true, if_false]
    rcases hI : truthy c.imageBase64 <;> simp [hI]
  · simp only [hA, if_true]

lemma resolveOpt_stable (s c : Record) :
    resolveOpt (some (resolveOpt (some s) c)) c = resolveOpt (some s) c := by
  by_cases h : recTime s ≤ recTime c
  · have h1 : resolveOpt (some s) c = maybeCopyImage c s := by
      rw [resolveOpt_some, if_pos h]
    rw [h1, resolveOpt_some, if_pos (by rw [recTime_maybeCopyImage])]
    exact maybeCopyImage_idem c s
  · have h1 : resolveOpt (some s) c = s := by
      rw [resolveOpt_some, if_neg h]
    rw [h1]
    exact h1

/-! ### The winner at an id occurring once on each side -/

lemma buildMap_pair {S C : List Record} {k : String} {s c : Record}
    (hs : S.filter (fun r => decide (r.id = k)) = [s])
    (hc : C.filter (fun r => decide (r.id = k)) = [c]) :
    buildMap (S ++ C) k = some (resolveOpt (some s) c) := by
  obtain ⟨pre, post, rfl, hpre, hpost⟩ := filter_singleton_split _ _ _ hc
  have hcid : c.id = k := by
    have := (mem_of_filter_singleton hc).2
    simpa using this
  unfold buildMap
  rw [List.foldl_append]
  rw [foldl_mergeStep_split pre post c _ k hcid
    (fun y hy => by simpa using hpre y hy)
    (fun y hy => by simpa using hpost y hy)]
  rw [foldl_mergeStep_of_filter_single S k s _ hs, resolveOpt_none]

lemma buildMap_left_only {S C : List Record} {k : String} {s : Record}
    (hs : S.filter (fun r => decide (r.id = k)) = [s])
    (hc : C.filter (fun r => decide (r.id = k)) = []) :
    buildMap (S ++ C) k = some s := by
  unfold buildMap
  rw [List.foldl_append, foldl_mergeStep_of_filter_nil C k _ hc,
    foldl_mergeStep_of_filter_single S k s _ hs, resolveOpt_none]

lemma buildMap_right_only {S C : List Record} {k : String} {c : Record}
    (hs : S.filter (fun r => decide (r.id = k)) = [])
    (hc : C.filter (fun r => decide (r.id = k)) = [c]) :
    buildMap (S ++ C) k = some c := by
  unfold buildMap
  rw [List.foldl_append, foldl_mergeStep_of_filter_single C k c _ hc,
    foldl_mergeStep_of_filter_nil S k _ hs, resolveOpt_none]

lemma filter_id_eq_singleton {l : List Record} {x : Record}
    (hn : (idsOf l).Nodup) (hx : x ∈ l) :
    l.filter (fun r => decide (r.id = x.id)) = [x] := by
  induction l with
  | nil => cases hx
  | cons a t ih =>
    have hn' : (∀ x ∈ t, ¬x.id = a.id) ∧ (List.map (fun r => r.id) t).Nodup := by
      simpa [idsOf] using hn
    have hna : a.id ∉ idsOf t := by
      intro hmem
      obtain ⟨y, hy, hyid⟩ := mem_idsOf.mp hmem
      exact hn'.1 y hy hyid
    have hnt : (idsOf t).Nodup := hn'.2
    rcases List.mem_cons.mp hx with rfl | hx'
    · rw [List.filter_cons, if_pos (by simp)]
      rw [List.filter_eq_nil_iff.mpr fun y hy => ?_]
      intro hdec
      have : y.id = x.id := by simpa using hdec
      exact hna (mem_idsOf.mpr ⟨y, hy, this.symm ▸ rfl⟩)
    · have hne : a.id ≠ x.id := fun he =>
        hna (he ▸ mem_idsOf.mpr ⟨x, hx', rfl⟩)
      rw [List.filter_cons, if_neg (by simpa using hne)]
      exact ih hnt hx'

lemma filter_id_eq_nil {l : List Record} {k : String}
    (h : k ∉ idsOf l) :
    l.filter (fun r => decide (r.id = k)) = [] := by
  refine List.filter_eq_nil_iff.mpr fun y hy hdec => ?_
  have : y.id = k := by simpa using hdec
  exact h (mem_idsOf.mpr ⟨y, hy, this⟩)

/-! ### Stability of a second reconciliation pass -/

lemma idsOf_filter_notin (l : List Record) (D : List String) :
    idsOf (l.filter fun r => decide (r.id ∉ D)) =
      (idsOf l).filter fun k => decide (k ∉ D) := by
  unfold idsOf
  rw [List.filter_map]
  rfl

lemma idsOf_merge_nodup (serverList clientList : List Item)
    (hS : (idsOf (safeList serverList)).Nodup)
    (hC : (idsOf (safeList clientList)).Nodup) :
    (idsOf (mergeOrderedList serverList clientList)).Nodup := by
  rw [List.nodup_iff_count_le_one]
  intro k
  rw [idsOf_mergeOrderedList_count serverList clientList hS hC k]
  split <;> omega

lemma safeList_final (serverList clientList : List Item) (D : List String) :
    safeList (((mergeOrderedList serverList clientList).filter fun r =>
      decide (r.id ∉ D)).map Item.obj) =
    (mergeOrderedList serverList clientList).filter fun r => decide (r.id ∉ D) :=
  safeList_map_obj _ fun _ hr => mergeOrderedList_id_ne (List.mem_of_mem_filter hr)

lemma buildMap_second_pass (serverList clientList : List Item)
    (hS : (idsOf (safeList serverList)).Nodup)
    (hC : (idsOf (safeList clientList)).Nodup) (D : List String) {f : Record}
    (hf : f ∈ (mergeOrderedList serverList clientList).filter fun r =>
      decide (r.id ∉ D)) :
    buildMap (((mergeOrderedList serverList clientList).filter fun r =>
      decide (r.id ∉ D)) ++ safeList clientList) f.id = some f := by
  have hfout : f ∈ mergeOrderedList serverList clientList :=
    List.mem_of_mem_filter hf
  have hFnodup : (idsOf ((mergeOrderedList serverList clientList).filter fun r =>
      decide (r.id ∉ D))).Nodup := by
    rw [idsOf_filter_notin]
    exact (idsOf_merge_nodup serverList clientList hS hC).filter _
  have hfil : ((mergeOrderedList serverList clientList).filter fun r =>
      decide (r.id ∉ D)).filter (fun r => decide (r.id = f.id)) = [f] :=
    filter_id_eq_singleton hFnodup hf
  have hlook1 : buildMap (safeList serverList ++ safeList clientList) f.id =
      some f := lookup_of_mem_mergeOrderedList hfout
  by_cases hkC : f.id ∈ idsOf (safeList clientList)
  · obtain ⟨c, hcC, hcid⟩ := mem_idsOf.mp hkC
    have hcfil : (safeList clientList).filter
        (fun r => decide (r.id = f.id)) = [c] := by
      rw [← hcid]
      exact filter_id_eq_singleton hC hcC
    rw [buildMap_pair hfil hcfil]
    congr 1
    by_cases hkS : f.id ∈ idsOf (safeList serverList)
    · obtain ⟨s, hsS, hsid⟩ := mem_idsOf.mp hkS
      have hsfil : (safeList serverList).filter
          (fun r => decide (r.id = f.id)) = [s] := by
        rw [← hsid]
        exact filter_id_eq_singleton hS hsS
      have hp := buildMap_pair hsfil hcfil
      rw [hp] at hlook1
      have hf_eq : resolveOpt (some s) c = f := by
        injection hlook1
      rw [← hf_eq, resolveOpt_stable]
    · have hsfil : (safeList serverList).filter
          (fun r => decide (r.id = f.id)) = [] := filter_id_eq_nil hkS
      have hp := buildMap_right_only hsfil hcfil
      rw [hp] at hlook1
      have hf_eq : c = f := by injection hlook1
      rw [← hf_eq, resolveOpt_self]
  · have hcfil : (safeList clientList).filter
        (fun r => decide (r.id = f.id)) = [] := filter_id_eq_nil hkC
    exact buildMap_left_only hfil hcfil

lemma second_pass_filter_mem (serverList clientList : List Item)
    (hS : (idsOf (safeList serverList)).Nodup)
    (hC : (idsOf (safeList clientList)).Nodup) (D : List String) (x : Record) :
    x ∈ (mergeOrderedList (((mergeOrderedList serverList clientList).filter
          fun r => decide (r.id ∉ D)).map Item.obj) clientList).filter
        (fun r => decide (r.id ∉ D)) ↔
      x ∈ (mergeOrderedList serverList clientList).filter fun r =>
        decide (r.id ∉ D) := by
  constructor
  · intro hx
    obtain ⟨hxout, hxD'⟩ := List.mem_filter.mp hx
    have hxD : x.id ∉ D := by simpa using hxD'
    obtain ⟨k, hk, hlook₂⟩ := (mem_mergeOrderedList_iff _ _ _).mp hxout
    rw [safeList_final] at hk hlook₂
    have hxid : x.id = k := buildMap_id hlook₂
    by_cases hkF : k ∈ idsOf ((mergeOrderedList serverList clientList).filter
        fun r => decide (r.id ∉ D))
    · obtain ⟨f, hfF, hfid⟩ := mem_idsOf.mp hkF
      have := buildMap_second_pass serverList clientList hS hC D hfF
      rw [hfid] at this
      rw [this] at hlook₂
      have : f = x := by injection hlook₂
      exact this ▸ hfF
    · exfalso
      have hkC : k ∈ idsOf (safeList clientList) := by
        rcases hk with h | h
        · exact absurd h hkF
        · exact h
      obtain ⟨w, hwlook⟩ := Option.isSome_iff_exists.mp
        (@buildMap_isSome_of_mem (safeList serverList ++ safeList clientList) k
          (by unfold idsOf at hkC ⊢
              rw [List.map_append]
              exact List.mem_append.mpr (Or.inr hkC)))
      have hwid : w.id = k := buildMap_id hwlook
      have hwout : w ∈ mergeOrderedList serverList clientList :=
        mem_mergeOrderedList_of_lookup (Or.inr hkC) hwlook
      have hkD : k ∈ D := by
        by_contra hkD
        exact hkF (mem_idsOf.mpr ⟨w, List.mem_filter.mpr
          ⟨hwout, by simpa [hwid] using hkD⟩, hwid⟩)
      exact hxD (hxid ▸ hkD)
  · intro hxF
    have hxD : x.id ∉ D := by
      have := (List.mem_filter.mp hxF).2
      simpa using this
    have hlook := buildMap_second_pass serverList clientList hS hC D hxF
    have hxout : x ∈ mergeOrderedList (((mergeOrderedList serverList
        clientList).filter fun r => decide (r.id ∉ D)).map Item.obj)
        clientList := by
      refine @mem_mergeOrderedList_of_lookup _ _ x.id x (Or.inl ?_) ?_
      · rw [safeList_final]
        exact mem_idsOf.mpr ⟨x, hxF, rfl⟩
      · rw [safeList_final]
        exact hlook
    exact List.mem_filter.mpr ⟨hxout, by simpa using hxD⟩

lemma nodup_records_of_nodup_ids {L : List Record} (h : (idsOf L).Nodup) :
    L.Nodup := List.Nodup.of_map _ h

lemma nodup_filter_ids {L : List Record} (h : (idsOf L).Nodup)
    (D : List String) :
    (idsOf (L.filter fun r => decide (r.id ∉ D))).Nodup := by
  rw [idsOf_filter_notin]
  exact h.filter _

lemma second_pass_filter_perm (serverList clientList : List Item)
    (hS : (idsOf (safeList serverList)).Nodup)
    (hC : (idsOf (safeList clientList)).Nodup) (D : List String) :
    ((mergeOrderedList (((mergeOrderedList serverList clientList).filter
        fun r => decide (r.id ∉ D)).map Item.obj) clientList).filter
      (fun r => decide (r.id ∉ D))).Perm
    ((mergeOrderedList serverList clientList).filter fun r =>
      decide (r.id ∉ D)) := by
  have hS2 : (idsOf (safeList (((mergeOrderedList serverList clientList).filter
      fun r => decide (r.id ∉ D)).map Item.obj))).Nodup := by
    rw [safeList_final]
    exact nodup_filter_ids (idsOf_merge_nodup serverList clientList hS hC) D
  have hn1 := nodup_records_of_nodup_ids (nodup_filter_ids
    (idsOf_merge_nodup (((mergeOrderedList serverList clientList).filter
      fun r => decide (r.id ∉ D)).map Item.obj) clientList hS2 hC) D)
  have hn2 := nodup_records_of_nodup_ids (nodup_filter_ids
    (idsOf_merge_nodup serverList clientList hS hC) D)
  exact (List.perm_ext_iff_of_nodup hn1 hn2).mpr
    (second_pass_filter_mem serverList clientList hS hC D)

/-! ### Provenance of every merged record -/

lemma buildMap_shape (items : List Record) :
    ∀ (k : String) (r : Record), buildMap items k = some r →
      ∃ orig ∈ items, orig.id = k ∧ (r = orig ∨ ∃ donor ∈ items, donor.id = k ∧
        r = { orig with imageBase64 := donor.imageBase64 }) := by
  induction items using List.reverseRecOn with
  | nil => intro k r h; cases h
  | append_singleton l x ih =>
    intro k r h
    unfold buildMap at h ih
    rw [List.foldl_append, List.foldl_cons, List.foldl_nil] at h
    by_cases hk : k = x.id
    · subst hk
      rw [mergeStep_self] at h
      injection h with h
      rcases hm : (l.foldl mergeStep fun _ => none) x.id with _ | e
      · rw [hm] at h
        rw [resolveOpt_none] at h
        exact ⟨x, List.mem_append.mpr (Or.inr (List.mem_singleton_self x)),
          rfl, Or.inl h.symm⟩
      · rw [hm] at h
        obtain ⟨orig, horig, hoid, hcase⟩ := ih x.id e hm
        rw [resolveOpt_some] at h
        split at h
        · unfold maybeCopyImage at h
          split at h
          · rcases hcase with hee | ⟨donor, hdon, hdid, hde⟩
            · exact ⟨x, List.mem_append.mpr (Or.inr (List.mem_singleton_self x)),
                rfl, Or.inr ⟨orig, List.mem_append.mpr (Or.inl horig), hoid,
                  by rw [← h, hee]⟩⟩
            · refine ⟨x, List.mem_append.mpr (Or.inr (List.mem_singleton_self x)),
                rfl, Or.inr ⟨donor, List.mem_append.mpr (Or.inl hdon), hdid,
                  ?_⟩⟩
              rw [← h, hde]
          · exact ⟨x, List.mem_append.mpr (Or.inr (List.mem_singleton_self x)),
              rfl, Or.inl h.symm⟩
        · rcases hcase with hee | ⟨donor, hdon, hdid, hde⟩
          · exact ⟨orig, List.mem_append.mpr (Or.inl horig), hoid,
              Or.inl (by rw [← h, hee])⟩
          · exact ⟨orig, List.mem_append.mpr (Or.inl horig), hoid,
              Or.inr ⟨donor, List.mem_append.mpr (Or.inl hdon), hdid,
                by rw [← h, hde]⟩⟩
    · rw [mergeStep_ne _ _ _ (fun he => hk he)] at h
      obtain ⟨orig, horig, hoid, hcase⟩ := ih k r h
      refine ⟨orig, List.mem_append.mpr (Or.inl horig), hoid, ?_⟩
      rcases hcase with rfl | ⟨donor, hdon, hdid, hde⟩
      · exact Or.inl rfl
      · exact Or.inr ⟨donor, List.mem_append.mpr (Or.inl hdon), hdid, hde⟩

/-! ### Claim theorems -/

/-- C1 counterexample data: the server record wins on timestamp (2 > 1),
has instructions, lacks an image; the losing client record carries one. -/
def c1CexSrv : List Item := [Item.obj ⟨"r1", some 2, some "x", none, []⟩]

/-- Client side of the C1 counterexample. -/
def c1CexCli : List Item := [Item.obj ⟨"r1", some 1, none, some "IMG", []⟩]

/-- C1, counterexample.  The claim says that whenever the winning record
lacks an image, the loser has one, and the winner has instructions, the
merged record is the winner with imageBase64 copied from the loser,
regardless of which input supplied the winner.  Here the server record
wins, all the side conditions hold, yet the merged record keeps
imageBase64 = none: the code only copies the image when the later-scanned
(client) record wins, because a losing later item never touches the map
entry. -/
theorem c1_counterexample :
    mergeOrderedList c1CexSrv c1CexCli = [⟨"r1", some 2, some "x", none, []⟩] ∧
    mergeOrderedList c1CexSrv c1CexCli ≠
      [⟨"r1", some 2, some "x", some "IMG", []⟩] := by
  constructor
  · decide
  · decide

/-- C1 (amended): the anti-data-loss copy holds when the winner is the
later-scanned client record, that is when the client timestamp is greater
than or equal to the server timestamp: if the two sanitized inputs each
contain exactly one record with id k, the client record wins the
comparison, has its instructions populated, lacks an image, and the server
record has one, then the winner map holds the client record with
imageBase64 copied from the server record, and that record appears in the
merged output.  When the server record wins strictly it is kept verbatim
(see the counterexample). -/
theorem c1_heavy_field_amended (serverList clientList : List Item)
    (s c : Record) (k : String)
    (hs : (safeList serverList).filter (fun r => decide (r.id = k)) = [s])
    (hc : (safeList clientList).filter (fun r => decide (r.id = k)) = [c])
    (ht : recTime s ≤ recTime c)
    (hin : truthy c.instructions = true)
    (him : truthy c.imageBase64 = false)
    (hsi : truthy s.imageBase64 = true) :
    buildMap (safeList serverList ++ safeList clientList) k =
      some { c with imageBase64 := s.imageBase64 } ∧
    { c with imageBase64 := s.imageBase64 } ∈
      mergeOrderedList serverList clientList := by
  have hmap := buildMap_pair hs hc
  have hres : resolveOpt (some s) c = { c with imageBase64 := s.imageBase64 } := by
    rw [resolveOpt_some, if_pos ht]
    unfold maybeCopyImage
    rw [if_pos (by rw [hin, him, hsi]; rfl)]
  rw [hres] at hmap
  have hk : k ∈ idsOf (safeList serverList) ∨ k ∈ idsOf (safeList clientList) := by
    left
    have hmem := (mem_of_filter_singleton hs).1
    have hsid : s.id = k := by simpa using (mem_of_filter_singleton hs).2
    exact mem_idsOf.mpr ⟨s, hmem, hsid⟩
  exact ⟨hmap, mem_mergeOrderedList_of_lookup hk hmap⟩

/-- Server record of the C1 witness (older, carries the image). -/
def c1WitS : Record := ⟨"r1", some 1, none, some "IMG", []⟩

/-- Client record of the C1 witness (newer edit without the image). -/
def c1WitC : Record := ⟨"r1", some 2, some "new text", none, []⟩

/-- Witness for the amended C1 at a concrete input: the newer client edit
keeps its text and receives the server image. -/
theorem c1_heavy_field_amended_witness :
    ((safeList [Item.obj c1WitS]).filter (fun r => decide (r.id = "r1")) =
      [c1WitS]) ∧
    ((safeList [Item.obj c1WitC]).filter (fun r => decide (r.id = "r1")) =
      [c1WitC]) ∧
    recTime c1WitS ≤ recTime c1WitC ∧
    truthy c1WitC.instructions = true ∧
    truthy c1WitC.imageBase64 = false ∧
    truthy c1WitS.imageBase64 = true ∧
    (buildMap (safeList [Item.obj c1WitS] ++ safeList [Item.obj c1WitC]) "r1" =
        some { c1WitC with imageBase64 := c1WitS.imageBase64 } ∧
      { c1WitC with imageBase64 := c1WitS.imageBase64 } ∈
        mergeOrderedList [Item.obj c1WitS] [Item.obj c1WitC]) :=
  ⟨by decide, by decide, by decide, by decide, by decide, by decide,
    c1_heavy_field_amended [Item.obj c1WitS] [Item.obj c1WitC] c1WitS c1WitC
      "r1" (by decide) (by decide) (by decide) (by decide) (by decide)
      (by decide)⟩

/-- C2: when an id occurs exactly once in each sanitized input, the merged
map entry for that id is decided by comparing recTime (updatedAt, missing
read as 0): the client record wins exactly when its timestamp is greater
than or equal to the server timestamp (strictly greater wins, and on a tie
the later-scanned client record wins), otherwise the server record is kept
verbatim.  maybeCopyImage only adjusts the imageBase64 field of the
winning client record and leaves every other field, so the selected winner
is as the claim states. -/
theorem c2_winner_selection (serverList clientList : List Item)
    (s c : Record) (k : String)
    (hs : (safeList serverList).filter (fun r => decide (r.id = k)) = [s])
    (hc : (safeList clientList).filter (fun r => decide (r.id = k)) = [c]) :
    buildMap (safeList serverList ++ safeList clientList) k =
      some (if recTime s ≤ recTime c then maybeCopyImage c s else s) := by
  rw [buildMap_pair hs hc, resolveOpt_some]

/-- Witness for C2 at a concrete tie: equal timestamps, the client record
wins against the server record. -/
theorem c2_winner_selection_witness :
    buildMap (safeList [Item.obj ⟨"z", some 9, none, none, []⟩,
        Item.obj ⟨"k", some 5, none, none, []⟩] ++
      safeList [Item.obj ⟨"k", some 5, some "c side", none, []⟩]) "k" =
      some (if recTime ⟨"k", some 5, none, none, []⟩ ≤
          recTime ⟨"k", some 5, some "c side", none, []⟩ then
        maybeCopyImage ⟨"k", some 5, some "c side", none, []⟩
          ⟨"k", some 5, none, none, []⟩
      else ⟨"k", some 5, none, none, []⟩) :=
  c2_winner_selection
    [Item.obj ⟨"z", some 9, none, none, []⟩, Item.obj ⟨"k", some 5, none, none, []⟩]
    [Item.obj ⟨"k", some 5, some "c side", none, []⟩]
    ⟨"k", some 5, none, none, []⟩ ⟨"k", some 5, some "c side", none, []⟩ "k"
    (by decide) (by decide)

/-- An object with an empty id, dropped by sanitization (models {}). -/
def c9Empty : Record := ⟨"", none, none, none, []⟩

/-- The bare record with id a on the server side of the C9 example. -/
def c9A : Record := ⟨"a", none, none, none, []⟩

/-- The client record with id a and the extra field v = 2. -/
def c9Av2 : Record := ⟨"a", none, none, none, [("v", "2")]⟩

/-- C9: the merge never fails (it is a total function here), and every
element that is not a structured object with a non-empty id is dropped
before merging: the output is unchanged when the malformed elements are
removed first.  In particular merging server [null, {}, {id: a}] with
client [{id: a, v: 2}, 42] returns exactly the record for id a with
v = 2. -/
theorem c9_malformed_robust :
    (∀ serverList clientList : List Item,
      mergeOrderedList serverList clientList =
        mergeOrderedList (serverList.filter isValidItem)
          (clientList.filter isValidItem)) ∧
    mergeOrderedList [Item.null, Item.obj c9Empty, Item.obj c9A]
      [Item.obj c9Av2, Item.num 42] = [c9Av2] := by
  constructor
  · intro serverList clientList
    simp only [mergeOrderedList]
    rw [safeList_filter_isValid, safeList_filter_isValid]
  · decide

/-- C10: every record of the merged output is one of the sanitized input
records bearing that id, or such a record with only its imageBase64 field
replaced by the imageBase64 of another input record with the same id; no
field is invented, dropped or rewritten. -/
theorem c10_frame (serverList clientList : List Item) (r : Record)
    (hr : r ∈ mergeOrderedList serverList clientList) :
    ∃ orig, (orig ∈ safeList serverList ∨ orig ∈ safeList clientList) ∧
      orig.id = r.id ∧
      (r = orig ∨ ∃ donor,
        (donor ∈ safeList serverList ∨ donor ∈ safeList clientList) ∧
        donor.id = r.id ∧
        r = { orig with imageBase64 := donor.imageBase64 }) := by
  have hlook := lookup_of_mem_mergeOrderedList hr
  obtain ⟨orig, horig, hoid, hcase⟩ := buildMap_shape _ _ _ hlook
  refine ⟨orig, List.mem_append.mp horig, hoid, ?_⟩
  rcases hcase with heq | ⟨donor, hdon, hdid, hde⟩
  · exact Or.inl heq
  · exact Or.inr ⟨donor, List.mem_append.mp hdon, hdid, hde⟩

/-- Witness for C10 at a concrete input where the image was copied: the
output record decomposes as the client record with the server image. -/
theorem c10_frame_witness :
    ({ c1WitC with imageBase64 := c1WitS.imageBase64 } ∈
      mergeOrderedList [Item.obj c1WitS] [Item.obj c1WitC]) ∧
    (∃ orig, (orig ∈ safeList [Item.obj c1WitS] ∨
        orig ∈ safeList [Item.obj c1WitC]) ∧
      orig.id = ({ c1WitC with imageBase64 := c1WitS.imageBase64 } : Record).id ∧
      (({ c1WitC with imageBase64 := c1WitS.imageBase64 } : Record) = orig ∨
        ∃ donor, (donor ∈ safeList [Item.obj c1WitS] ∨
            donor ∈ safeList [Item.obj c1WitC]) ∧
          donor.id =
            ({ c1WitC with imageBase64 := c1WitS.imageBase64 } : Record).id ∧
          ({ c1WitC with imageBase64 := c1WitS.imageBase64 } : Record) =
            { orig with imageBase64 := donor.imageBase64 })) :=
  ⟨by decide,
    c10_frame [Item.obj c1WitS] [Item.obj c1WitC]
      { c1WitC with imageBase64 := c1WitS.imageBase64 } (by decide)⟩

/-- Client list of the C3 counterexample: one timestamped record and two
null elements. -/
def c3CexCli : List Item :=
  [Item.obj ⟨"a", some 10, none, none, []⟩, Item.null, Item.null]

/-- Server list of the C3 counterexample: a single record at time 5. -/
def c3CexSrv : List Item := [Item.obj ⟨"b", some 5, none, none, []⟩]

/-- C3, counterexample.  Taken over the original pre-sanitization client
list [a at 10, null, null] the median of per-item timestamps is 0, so
under the claim the server (median 5) would be strictly higher and its
order [b, a] authoritative.  The code computes the score over the
sanitized list (10 versus 5) and produces the client-led order [a, b],
refuting the pre-sanitization reading of the claim. -/
theorem c3_counterexample :
    claimScoreOriginal c3CexCli = 0 ∧
    claimScoreOriginal c3CexSrv = 5 ∧
    getListRecencyScore (safeList c3CexCli) = 10 ∧
    getListRecencyScore (safeList c3CexSrv) = 5 ∧
    idsOf (mergeOrderedList c3CexSrv c3CexCli) = ["a", "b"] := by
  refine ⟨by decide, by decide, by decide, by decide, by decide⟩

/-- C3 (amended): the recency score of each input list is the median of
the per-item updatedAt values (missing read as 0) of the SANITIZED list:
it is one of those values, at least floor(n/2) + 1 of them are greater
than or equal to it and at least n - floor(n/2) are less than or equal to
it; and the list whose score is strictly higher dictates the output
order (its ids first, then the other-only ids in their original relative
order). -/
theorem c3_median_authority (serverList clientList : List Item)
    (hs : safeList serverList ≠ []) (hc : safeList clientList ≠ []) :
    (getListRecencyScore (safeList serverList) ∈
        (safeList serverList).map recTime ∧
      (safeList serverList).length / 2 + 1 ≤
        ((safeList serverList).map recTime).countP
          (fun t => decide (getListRecencyScore (safeList serverList) ≤ t)) ∧
      (safeList serverList).length - (safeList serverList).length / 2 ≤
        ((safeList serverList).map recTime).countP
          (fun t => decide (t ≤ getListRecencyScore (safeList serverList)))) ∧
    (getListRecencyScore (safeList clientList) ∈
        (safeList clientList).map recTime ∧
      (safeList clientList).length / 2 + 1 ≤
        ((safeList clientList).map recTime).countP
          (fun t => decide (getListRecencyScore (safeList clientList) ≤ t)) ∧
      (safeList clientList).length - (safeList clientList).length / 2 ≤
        ((safeList clientList).map recTime).countP
          (fun t => decide (t ≤ getListRecencyScore (safeList clientList)))) ∧
    (getListRecencyScore (safeList serverList) <
        getListRecencyScore (safeList clientList) →
      idsOf (mergeOrderedList serverList clientList) =
        idsOf (safeList clientList) ++
          (idsOf (safeList serverList)).filter
            (fun k => decide (k ∉ idsOf (safeList clientList)))) ∧
    (getListRecencyScore (safeList clientList) <
        getListRecencyScore (safeList serverList) →
      idsOf (mergeOrderedList serverList clientList) =
        idsOf (safeList serverList) ++
          (idsOf (safeList clientList)).filter
            (fun k => decide (k ∉ idsOf (safeList serverList)))) := by
  refine ⟨getListRecencyScore_median _ hs, getListRecencyScore_median _ hc,
    fun h => ?_, fun h => ?_⟩
  · obtain ⟨ha, ho⟩ := authListCode_of_client_gt h
    rw [idsOf_mergeOrderedList, ha, ho]
  · obtain ⟨ha, ho⟩ := authListCode_of_server_gt h
    rw [idsOf_mergeOrderedList, ha, ho]

/-- Witness for the amended C3: median facts for the server list of the
counterexample pair and the client-led order, since 5 < 10. -/
theorem c3_median_authority_witness :
    (getListRecencyScore (safeList c3CexSrv) ∈
        (safeList c3CexSrv).map recTime ∧
      (safeList c3CexSrv).length / 2 + 1 ≤
        ((safeList c3CexSrv).map recTime).countP
          (fun t => decide (getListRecencyScore (safeList c3CexSrv) ≤ t)) ∧
      (safeList c3CexSrv).length - (safeList c3CexSrv).length / 2 ≤
        ((safeList c3CexSrv).map recTime).countP
          (fun t => decide (t ≤ getListRecencyScore (safeList c3CexSrv)))) ∧
    idsOf (mergeOrderedList c3CexSrv c3CexCli) =
      idsOf (safeList c3CexCli) ++
        (idsOf (safeList c3CexSrv)).filter
          (fun k => decide (k ∉ idsOf (safeList c3CexCli))) := by
  have h := c3_median_authority c3CexSrv c3CexCli (by decide) (by decide)
  exact ⟨h.1, h.2.2.1 (by decide)⟩

/-- C4: the merged output lists the authoritative ids first, in the
authoritative list order, then the ids only present in the
non-authoritative list in their original relative order; each output
record is the winner-map entry at its id; every output id comes from one
of the sanitized inputs, so ids absent from both never appear; and the
authoritative list is the strictly higher-scored one with the client
chosen on a tie (specAuthoritative), which coincides with the code's
greater-or-equal choice. -/
theorem c4_output_order (serverList clientList : List Item) :
    idsOf (mergeOrderedList serverList clientList) =
      idsOf (specAuthoritative serverList clientList) ++
        (idsOf (specNonAuthoritative serverList clientList)).filter
          (fun k => decide (k ∉ idsOf (specAuthoritative serverList clientList))) ∧
    (∀ r ∈ mergeOrderedList serverList clientList,
      buildMap (safeList serverList ++ safeList clientList) r.id = some r) ∧
    (∀ r ∈ mergeOrderedList serverList clientList,
      r.id ∈ idsOf (safeList serverList) ∨
        r.id ∈ idsOf (safeList clientList)) := by
  refine ⟨?_, fun r hr => lookup_of_mem_mergeOrderedList hr, fun r hr => ?_⟩
  · rw [specAuthoritative_eq, specNonAuthoritative_eq]
    exact idsOf_mergeOrderedList serverList clientList
  · obtain ⟨k, hk, hlook⟩ := (mem_mergeOrderedList_iff _ _ _).mp hr
    rw [buildMap_id hlook]
    exact hk

/-- Witness for C4 at the concrete pair of the C3 counterexample. -/
theorem c4_output_order_witness :
    idsOf (mergeOrderedList c3CexSrv c3CexCli) =
      idsOf (specAuthoritative c3CexSrv c3CexCli) ++
        (idsOf (specNonAuthoritative c3CexSrv c3CexCli)).filter
          (fun k => decide (k ∉ idsOf (specAuthoritative c3CexSrv c3CexCli))) ∧
    buildMap (safeList c3CexSrv ++ safeList c3CexCli)
        (⟨"a", some 10, none, none, []⟩ : Record).id =
      some ⟨"a", some 10, none, none, []⟩ := by
  have h := c4_output_order c3CexSrv c3CexCli
  exact ⟨h.1, h.2.1 ⟨"a", some 10, none, none, []⟩ (by decide)⟩

/-- The duplicated record of the C5 counterexample. -/
def c5Dup : Record := ⟨"a", none, none, none, []⟩

/-- C5, counterexample.  The claim promises no duplicate ids for all
inputs including repeated ids; but when one input repeats an id the
authoritative order emits the winner once per occurrence: merging server
[] with client [a, a] yields the id a twice. -/
theorem c5_counterexample :
    (idsOf (mergeOrderedList [] [Item.obj c5Dup, Item.obj c5Dup])).count "a" =
      2 := by decide

/-- C5 (amended): when each sanitized input carries no repeated ids (the
data-model invariant on collections), every id present in either
sanitized input appears exactly once in the merged output and no other id
appears.  (The output is deterministic for identical inputs since the
merge is a pure function.) -/
theorem c5_union_exactly_once (serverList clientList : List Item)
    (hS : (idsOf (safeList serverList)).Nodup)
    (hC : (idsOf (safeList clientList)).Nodup) (k : String) :
    (idsOf (mergeOrderedList serverList clientList)).count k =
      if k ∈ idsOf (safeList serverList) ∨ k ∈ idsOf (safeList clientList)
      then 1 else 0 :=
  idsOf_mergeOrderedList_count serverList clientList hS hC k

/-- Witness for the amended C5 at a concrete overlapping pair. -/
theorem c5_union_exactly_once_witness :
    (idsOf (safeList [Item.obj ⟨"a", some 3, none, none, []⟩,
      Item.obj ⟨"b", none, none, none, []⟩])).Nodup ∧
    (idsOf (mergeOrderedList
        [Item.obj ⟨"a", some 3, none, none, []⟩,
          Item.obj ⟨"b", none, none, none, []⟩]
        [Item.obj ⟨"a", some 7, none, none, []⟩])).count "a" =
      if "a" ∈ idsOf (safeList [Item.obj ⟨"a", some 3, none, none, []⟩,
          Item.obj ⟨"b", none, none, none, []⟩]) ∨
        "a" ∈ idsOf (safeList [Item.obj ⟨"a", some 7, none, none, []⟩])
      then 1 else 0 :=
  ⟨by decide,
    c5_union_exactly_once
      [Item.obj ⟨"a", some 3, none, none, []⟩,
        Item.obj ⟨"b", none, none, none, []⟩]
      [Item.obj ⟨"a", some 7, none, none, []⟩]
      (by decide) (by decide) "a"⟩

/-- C6: after a POST /data reconciliation, any id in the merged tombstone
set of a collection kind is absent from that collection of the resulting
state, whatever the server input, the client input, or both contained:
tombstones are merged first, the collections are merged, and only then are
tombstoned ids filtered out. -/
theorem c6_no_resurrection (serverData clientData : SyncState) (k : String) :
    (k ∈ mergeDeletedIds serverData.deletedRecipeIds
        clientData.deletedRecipeIds →
      ∀ r : Record, Item.obj r ∈ (postData serverData clientData).recipes →
        r.id ≠ k) ∧
    (k ∈ mergeDeletedIds serverData.deletedGroceryIds
        clientData.deletedGroceryIds →
      ∀ r : Record, Item.obj r ∈ (postData serverData clientData).groceryList →
        r.id ≠ k) := by
  constructor <;> intro hk r hr heq <;> simp only [postData] at hr <;>
    obtain ⟨r', hr', hobj⟩ := List.mem_map.mp hr
  · have hrr : r' = r := by injection hobj
    subst hrr
    have hfil := (List.mem_filter.mp hr').2
    simp only [decide_eq_true_eq] at hfil
    exact hfil (by rw [heq]; exact hk)
  · have hrr : r' = r := by injection hobj
    subst hrr
    have hfil := (List.mem_filter.mp hr').2
    simp only [decide_eq_true_eq] at hfil
    exact hfil (by rw [heq]; exact hk)

/-- Witness for C6: a tombstoned id present in both inputs does not come
back. -/
theorem c6_no_resurrection_witness :
    "x" ∈ mergeDeletedIds ["x"] [] ∧
    (∀ r : Record, Item.obj r ∈
      (postData ⟨[Item.obj ⟨"x", some 1, none, none, []⟩], [], ["x"], []⟩
        ⟨[Item.obj ⟨"x", some 2, none, none, []⟩], [], [], []⟩).recipes →
      r.id ≠ "x") :=
  ⟨by decide,
    (c6_no_resurrection ⟨[Item.obj ⟨"x", some 1, none, none, []⟩], [], ["x"], []⟩
      ⟨[Item.obj ⟨"x", some 2, none, none, []⟩], [], [], []⟩ "x").1 (by decide)⟩

/-- Server state of the C7 counterexample: one recipe at time 100. -/
def c7CexSrv : SyncState :=
  ⟨[Item.obj ⟨"x", some 100, none, none, []⟩], [], [], []⟩

/-- Client snapshot of the C7 counterexample: one untimestamped recipe. -/
def c7CexCli : SyncState :=
  ⟨[Item.obj ⟨"y", none, none, none, []⟩], [], [], []⟩

/-- C7, counterexample.  Reconciling the same client snapshot a second
time flips the recipe order: the first pass is server-authoritative
(scores 100 versus 0) and yields [x, y]; appending the client-only item
lowers the stored list's median to 0, so the second pass ties 0 to 0,
becomes client-authoritative, and yields [y, x].  The state is not a fixed
point. -/
theorem c7_counterexample :
    postData (postData c7CexSrv c7CexCli) c7CexCli ≠
      postData c7CexSrv c7CexCli ∧
    (postData c7CexSrv c7CexCli).recipes =
      [Item.obj ⟨"x", some 100, none, none, []⟩,
        Item.obj ⟨"y", none, none, none, []⟩] ∧
    (postData (postData c7CexSrv c7CexCli) c7CexCli).recipes =
      [Item.obj ⟨"y", none, none, none, []⟩,
        Item.obj ⟨"x", some 100, none, none, []⟩] := by
  refine ⟨by decide, by decide, by decide⟩

/-- C7 (amended): for inputs whose sanitized collections carry no repeated
ids, reconciling the same client snapshot a second time leaves the
tombstone sets unchanged and returns the same collections up to order
(the same set of records, each id resolved to the identical record); only
the relative order may change, when the recency-score authority decision
flips (see the counterexample). -/
theorem c7_idempotent_amended (serverData clientData : SyncState)
    (h1 : (idsOf (safeList serverData.recipes)).Nodup)
    (h2 : (idsOf (safeList clientData.recipes)).Nodup)
    (h3 : (idsOf (safeList serverData.groceryList)).Nodup)
    (h4 : (idsOf (safeList clientData.groceryList)).Nodup) :
    (postData (postData serverData clientData) clientData).deletedRecipeIds =
      (postData serverData clientData).deletedRecipeIds ∧
    (postData (postData serverData clientData) clientData).deletedGroceryIds =
      (postData serverData clientData).deletedGroceryIds ∧
    ((postData (postData serverData clientData) clientData).recipes).Perm
      ((postData serverData clientData).recipes) ∧
    ((postData (postData serverData clientData) clientData).groceryList).Perm
      ((postData serverData clientData).groceryList) := by
  simp only [postData]
  refine ⟨mergeDeletedIds_absorb _ _, mergeDeletedIds_absorb _ _, ?_, ?_⟩
  · simp only [mergeDeletedIds_absorb]
    exact (second_pass_filter_perm serverData.recipes clientData.recipes
      h1 h2 _).map Item.obj
  · simp only [mergeDeletedIds_absorb]
    exact (second_pass_filter_perm serverData.groceryList
      clientData.groceryList h3 h4 _).map Item.obj

/-- Witness for the amended C7 at the counterexample pair: the second pass
permutes the same records and keeps the tombstone sets. -/
theorem c7_idempotent_amended_witness :
    (idsOf (safeList c7CexSrv.recipes)).Nodup ∧
    (postData (postData c7CexSrv c7CexCli) c7CexCli).deletedRecipeIds =
      (postData c7CexSrv c7CexCli).deletedRecipeIds ∧
    ((postData (postData c7CexSrv c7CexCli) c7CexCli).recipes).Perm
      ((postData c7CexSrv c7CexCli).recipes) := by
  have h := c7_idempotent_amended c7CexSrv c7CexCli (by decide) (by decide)
    (by decide) (by decide)
  exact ⟨by decide, h.1, h.2.2.1⟩

/-- The grocery item of the C8 counterexample. -/
def c8Item : Entry := ⟨"g", "", "milk", []⟩

/-- A persisted state where id g is both in the grocery list and
tombstoned. -/
def c8Store : Store2 := ⟨[], [c8Item], [], ["g"]⟩

/-- C8, counterexample.  POST /grocery succeeds (200) for an item whose id
already exists, but in that branch the handler never calls writeData, so
the in-memory removal of the id from deletedGroceryIds is not persisted:
the persisted tombstone set still contains g after the successful
request. -/
theorem c8_counterexample :
    postGrocery c8Store c8Item = some c8Store ∧
    "g" ∈ c8Store.deletedGroceryIds := by
  refine ⟨by decide, by decide⟩

/-- C8 (amended): POST /recipes always removes the id from the persisted
deletedRecipeIds (it always persists); POST /grocery removes the id from
the persisted deletedGroceryIds only when no item with that id is already
in the list, since when one is present the handler answers without
persisting and the stored state is unchanged. -/
theorem c8_restore_amended :
    (∀ (data : Store2) (e : Entry) (s2 : Store2),
      postRecipes data e = some s2 → e.id ∉ s2.deletedRecipeIds) ∧
    (∀ (data : Store2) (e : Entry) (s2 : Store2),
      postGrocery data e = some s2 →
      (∀ g ∈ data.groceryList, g.id ≠ e.id) →
      e.id ∉ s2.deletedGroceryIds) ∧
    (∀ (data : Store2) (e : Entry) (s2 : Store2),
      postGrocery data e = some s2 →
      (∃ g ∈ data.groceryList, g.id = e.id) → s2 = data) := by
  refine ⟨?_, ?_, ?_⟩
  · intro data e s2 h
    unfold postRecipes at h
    split at h
    · cases h
    · injection h with h2
      subst h2
      intro hmem
      have hmem' : e.id ∈ data.deletedRecipeIds.filter
          (fun i => decide (i ≠ e.id)) := hmem
      have := List.of_mem_filter hmem'
      simp at this
  · intro data e s2 h hnone
    unfold postGrocery at h
    split at h
    · cases h
    · split at h
      next hany =>
        exfalso
        obtain ⟨g, hg, hgid⟩ := List.any_eq_true.mp hany
        exact hnone g hg (by simpa using hgid)
      next hany =>
        injection h with h2
        subst h2
        intro hmem
        have hmem' : e.id ∈ data.deletedGroceryIds.filter
            (fun i => decide (i ≠ e.id)) := hmem
        have := List.of_mem_filter hmem'
        simp at this
  · intro data e s2 h hex
    unfold postGrocery at h
    split at h
    · cases h
    · split at h
      next hany =>
        injection h with h2
        exact h2.symm
      next hany =>
        exfalso
        obtain ⟨g, hg, hgid⟩ := hex
        exact hany (List.any_eq_true.mpr ⟨g, hg, by simpa using hgid⟩)

/-- Witness for the amended C8: creating a recipe whose id is tombstoned
persists a state without that tombstone. -/
theorem c8_restore_amended_witness :
    postRecipes ⟨[], [], ["r"], []⟩ ⟨"r", "t", "", []⟩ =
      some ⟨[⟨"r", "t", "", []⟩], [], [], []⟩ ∧
    "r" ∉ (⟨[⟨"r", "t", "", []⟩], [], [], []⟩ : Store2).deletedRecipeIds :=
  ⟨by decide,
    c8_restore_amended.1 ⟨[], [], ["r"], []⟩ ⟨"r", "t", "", []⟩
      ⟨[⟨"r", "t", "", []⟩], [], [], []⟩ (by decide)⟩
